import Mathlib

/-!
Verification of the structural text-reconstruction pipeline of `pdf-to-md`
(`src/index.ts`).  The pipeline (`buildSemanticFromXml`) takes per-page
positioned text runs, filters margin/noise runs, detects columns, sorts runs
into reading order, merges runs into lines, emits blocks separated by blank
lines, and accumulates statistics.  The presentation-layer block classifier
(`semanticHtml` inside the generated HTML) regroups a page's text into blocks
and labels them heading / list item / paragraph.

Modelling notes:
* Numeric attribute values (`top`, `left`, `height`, `width`, font sizes) are
  modelled as rationals (`ℚ`); the JavaScript float literal `1.45` is modelled
  exactly as `29/20`.
* Strings are modelled as Lean `String`s (lists of characters); JavaScript
  string/regex operations that the source uses are each translated into an
  explicit recursive function on `List Char` below.
* `Array.prototype.sort` with comparator
  `a.col - b.col || a.top - b.top || a.left - b.left` is a stable sort by the
  lexicographic key `(col, top, left)`; it is modelled by a stable insertion
  sort on that key.
-/

set_option allowUnsafeReducibility true
set_option maxRecDepth 16000

attribute [local semireducible] Rat.sub Rat.add Rat.mul Rat.div Rat.inv Rat.neg

namespace PdfToMd

/-- Characters matched by the JavaScript regex class `\s`. -/
def isJsSpace (c : Char) : Bool :=
  c = ' ' || c = '\t' || c = '\n' || c = '\x0b' || c = '\x0c' || c = '\r' ||
  c.toNat = 0x00A0 || c.toNat = 0x1680 ||
  (0x2000 ≤ c.toNat && c.toNat ≤ 0x200A) ||
  c.toNat = 0x2028 || c.toNat = 0x2029 || c.toNat = 0x202F ||
  c.toNat = 0x205F || c.toNat = 0x3000 || c.toNat = 0xFEFF

/-- Scan for the first `>` and return the suffix after it. -/
def afterTagAux : List Char → Option (List Char)
  | [] => none
  | c :: rest => if c = '>' then some rest else afterTagAux rest

/-- Given the characters after a `<`, return the suffix after the closing `>`
of a tag match of the regex `<[^>]+>` (at least one non-`>` character before
the `>`), or `none` if the regex does not match here. -/
def afterTag : List Char → Option (List Char)
  | [] => none
  | c :: rest => if c = '>' then none else afterTagAux rest

/-- Fuelled scan of `s.replace(/<[^>]+>/g, "")`: each step consumes at least
one character, so fuel equal to the list length always suffices (the
`(0, c :: rest)` case is unreachable then). -/
def stripTagsF : Nat → List Char → List Char
  | _, [] => []
  | 0, l => l
  | fuel + 1, c :: rest =>
    if c = '<' then
      match afterTag rest with
      | some after => stripTagsF fuel after
      | none => c :: stripTagsF fuel rest
    else c :: stripTagsF fuel rest

/-- Model of `s.replace(/<[^>]+>/g, "")`: remove every tag-like span. -/
def stripTags (l : List Char) : List Char := stripTagsF l.length l

/-- Fuelled scan of `String.prototype.replaceAll` with a non-empty string
pattern: left-to-right non-overlapping replacement, resuming after each
match.  Each step consumes at least one character, so fuel equal to the list
length always suffices. -/
def replaceAllLF (pat rep : List Char) : Nat → List Char → List Char
  | _, [] => []
  | 0, l => l
  | fuel + 1, c :: rest =>
    if pat ≠ [] ∧ pat.isPrefixOf (c :: rest) then
      rep ++ replaceAllLF pat rep fuel ((c :: rest).drop pat.length)
    else
      c :: replaceAllLF pat rep fuel rest

/-- Model of `s.replaceAll(pat, rep)` for a non-empty string pattern. -/
def replaceAllL (pat rep : List Char) (l : List Char) : List Char :=
  replaceAllLF pat rep l.length l

/-- The apostrophe character, `&#39;`. -/
def aposChar : Char := Char.ofNat 39

/-- Model of `decodeXmlEntities`: the five sequential `replaceAll` calls, in
source order (`&lt;`, `&gt;`, `&amp;`, `&quot;`, `&#39;`). -/
def decodeEntitiesL (l : List Char) : List Char :=
  replaceAllL ('&' :: '#' :: '3' :: '9' :: aposChar :: []) [aposChar]
    (replaceAllL "&quot;".data ['"']
      (replaceAllL "&amp;".data ['&']
        (replaceAllL "&gt;".data ['>']
          (replaceAllL "&lt;".data ['<'] l))))

/-- Model of `s.replace(/\s+/g, " ")`: collapse every whitespace run to one
space. -/
def collapseWsL : List Char → List Char
  | [] => []
  | [c] => if isJsSpace c then [' '] else [c]
  | c :: d :: rest =>
    if isJsSpace c && isJsSpace d then collapseWsL (d :: rest)
    else (if isJsSpace c then ' ' else c) :: collapseWsL (d :: rest)

/-- Model of `String.prototype.trim`. -/
def trimL (l : List Char) : List Char :=
  ((l.dropWhile isJsSpace).reverse.dropWhile isJsSpace).reverse

/-- Model of `s.split("\n")` (JavaScript semantics: number of pieces is the
number of `\n` characters plus one). -/
def splitNlL : List Char → List (List Char)
  | [] => [[]]
  | c :: rest =>
    if c = '\n' then [] :: splitNlL rest
    else
      match splitNlL rest with
      | [] => [[c]]
      | p :: ps => (c :: p) :: ps

/-- Fuelled scan of `s.replace(/\n{3,}/g, "\n\n")`: every maximal run of
three or more newlines becomes exactly two; shorter runs are kept.  Each step
consumes at least one character, so fuel equal to the list length always
suffices. -/
def collapseNLF : Nat → List Char → List Char
  | _, [] => []
  | 0, l => l
  | fuel + 1, c :: rest =>
    if c = '\n' then
      (if 2 ≤ (rest.takeWhile (fun d => d = '\n')).length then ['\n', '\n']
       else '\n' :: rest.takeWhile (fun d => d = '\n')) ++
        collapseNLF fuel (rest.dropWhile (fun d => d = '\n'))
    else c :: collapseNLF fuel rest

/-- Model of `s.replace(/\n{3,}/g, "\n\n")`. -/
def collapseNL (l : List Char) : List Char := collapseNLF l.length l

/-- Does the list start with at least one `\s` character followed by a digit
(the `\s+\d` part of `/^PDF\s+\d/`)? -/
def spacesThenDigit (l : List Char) : Bool :=
  match l with
  | c :: _ =>
    isJsSpace c &&
      (match l.dropWhile isJsSpace with
       | d :: _ => d.isDigit
       | [] => false)
  | [] => false

/-- Model of the test `/^PDF\s+\d/.test(text)`. -/
def matchPdfNum (l : List Char) : Bool :=
  match l with
  | 'P' :: 'D' :: 'F' :: rest => spacesThenDigit rest
  | _ => false

/-- Does the list start with at least one `\s` character followed by the given
literal characters? -/
def spacesThenLit (pat : List Char) (l : List Char) : Bool :=
  match l with
  | c :: _ => isJsSpace c && decide (pat <+: l.dropWhile isJsSpace)
  | [] => false

/-- Model of the test `/^©\s+Adobe Systems/.test(text)`. -/
def matchAdobe (l : List Char) : Bool :=
  match l with
  | '©' :: rest => spacesThenLit "Adobe Systems".data rest
  | _ => false

/-- All characters are ASCII digits. -/
def allDigits (l : List Char) : Bool := l.all Char.isDigit

/-- Model of the test `/^(Page\s+)?\d+$/.test(text)`. -/
def matchPageNum (l : List Char) : Bool :=
  (decide (l ≠ []) && allDigits l) ||
  (match l with
   | 'P' :: 'a' :: 'g' :: 'e' :: rest =>
     (match rest with
      | c :: _ =>
        isJsSpace c &&
          (let r := rest.dropWhile isJsSpace
           decide (r ≠ []) && allDigits r)
      | [] => false)
   | _ => false)

/-- Model of the test `/^THIS PAGE BLANK$/i.test(text)`. -/
def matchBlankPage (l : List Char) : Bool :=
  decide (l.map Char.toLower = "this page blank".data)

/-- One raw `<text>` element of a page: `top` and `left` attributes, the `font`
attribute (a font id), and the raw markup body between the tags. -/
structure RawText where
  top : ℚ
  left : ℚ
  font : String
  body : String
deriving DecidableEq

/-- One `<page>` element: `height` and `width` attributes, the `<fontspec>`
table (id, size) in document order, and the `<text>` elements in document
order. -/
structure PageInput where
  height : ℚ
  width : ℚ
  fonts : List (String × ℚ)
  texts : List RawText
deriving DecidableEq

/-- A collected, filtered text run (`items` entry in the source). -/
structure Item where
  top : ℚ
  left : ℚ
  fontSize : ℚ
  bold : Bool
  text : String
deriving DecidableEq

/-- A run tagged with its column (`sorted` entry in the source). -/
structure CItem where
  top : ℚ
  left : ℚ
  fontSize : ℚ
  bold : Bool
  text : String
  col : ℤ
deriving DecidableEq

/-- A merged line (`XmlLine` in the source). -/
structure XmlLine where
  col : ℤ
  top : ℚ
  left : ℚ
  fontSize : ℚ
  bold : Bool
  text : String
deriving DecidableEq

/-- Font-table lookup: `fontSizes` is a `Map` filled in document order (later
`fontspec` entries with the same id overwrite, ids that are empty strings are
skipped because of the `if (id)` guard), and `fontSizes.get(fontId) ?? 12`
defaults to 12. -/
def lookupFont (fonts : List (String × ℚ)) (fid : String) : ℚ :=
  (((fonts.filter (fun p => p.1 != "")).reverse).lookup fid).getD 12

/-- The normalized text of a raw body:
`decodeXmlEntities(body.replace(/<[^>]+>/g, "")).replace(/\s+/g, " ").trim()`. -/
def normText (body : String) : String :=
  ⟨trimL (collapseWsL (decodeEntitiesL (stripTags body.data)))⟩

/-- Bold flag of a raw body: `/<b>/.test(...)`. -/
def boldOf (body : String) : Bool := decide ("<b>".data <:+: body.data)

/-- The run collector's treatment of a single `<text>` element: normalize the
text, then apply the empty / margin / noise filters in source order. -/
def itemOfText (height : ℚ) (fonts : List (String × ℚ)) (t : RawText) : Option Item :=
  let text := normText t.body
  if text = "" then none
  else if 0 < height ∧ (t.top < 80 ∨ t.top > height - 80) then none
  else if matchPdfNum text.data then none
  else if matchAdobe text.data then none
  else if matchPageNum text.data then none
  else if matchBlankPage text.data then none
  else some ⟨t.top, t.left, lookupFont fonts t.font, boldOf t.body, text⟩

/-- The filtered run list of a page (`items` in the source). -/
def collectItems (p : PageInput) : List Item :=
  p.texts.filterMap (itemOfText p.height p.fonts)

/-- `const mid = pageWidth > 0 ? pageWidth / 2 : 0`. -/
def midOf (p : PageInput) : ℚ := if 0 < p.width then p.width / 2 else 0

/-- Number of collected runs with `left < mid - 40`. -/
def leftCount (p : PageInput) : ℕ :=
  ((collectItems p).filter (fun i => decide (i.left < midOf p - 40))).length

/-- Number of collected runs with `left > mid + 40`. -/
def rightCount (p : PageInput) : ℕ :=
  ((collectItems p).filter (fun i => decide (i.left > midOf p + 40))).length

/-- `twoCol = pageWidth > 0 && leftCount > 25 && rightCount > 25`. -/
def twoColOf (p : PageInput) : Bool :=
  decide (0 < p.width) && decide (25 < leftCount p) && decide (25 < rightCount p)

/-- Column assignment: `col = twoCol && i.left > mid ? 1 : 0`. -/
def tagItem (twoCol : Bool) (mid : ℚ) (i : Item) : CItem :=
  ⟨i.top, i.left, i.fontSize, i.bold, i.text, if twoCol ∧ mid < i.left then 1 else 0⟩

/-- The column-tagged runs of a page, before sorting. -/
def taggedRuns (p : PageInput) : List CItem :=
  (collectItems p).map (tagItem (twoColOf p) (midOf p))

/-- Strict lexicographic order on `(col, top, left)`: the comparator
`a.col - b.col || a.top - b.top || a.left - b.left` sorts `a` before `b`
exactly when this holds. -/
def runLtB (a b : CItem) : Bool :=
  decide (a.col < b.col) ||
    (decide (a.col = b.col) &&
      (decide (a.top < b.top) || (decide (a.top = b.top) && decide (a.left < b.left))))

/-- Stable insertion of an element coming before the list's elements in the
original order: it goes before the first element not strictly below it. -/
def insertRun (a : CItem) : List CItem → List CItem
  | [] => [a]
  | b :: bs => if runLtB b a then b :: insertRun a bs else a :: b :: bs

/-- Stable sort by `(col, top, left)` (model of `Array.prototype.sort`, which
is stable). -/
def sortRuns (l : List CItem) : List CItem := l.foldr insertRun []

/-- The page's runs in reading order (`sorted` in the source). -/
def sortedRuns (p : PageInput) : List CItem := sortRuns (taggedRuns p)

/-- A fresh line seeded from a run. -/
def lineOfItem (it : CItem) : XmlLine :=
  ⟨it.col, it.top, it.left, it.fontSize, it.bold, it.text⟩

/-- One step of the line-merge pass: the source looks at
`prev = lines[lines.length - 1]`, merges the run into it when it exists,
shares the column, and is within the 3-unit top jitter and the 500-unit left
span, and otherwise pushes a fresh line. -/
def mergeStep (ls : List XmlLine) (it : CItem) : List XmlLine :=
  match ls.getLast? with
  | some prev =>
    if prev.col = it.col ∧ |prev.top - it.top| ≤ 3 ∧ |prev.left - it.left| < 500 then
      ls.dropLast ++
        [{ prev with
            text := prev.text ++ " " ++ it.text
            fontSize := max prev.fontSize it.fontSize
            bold := prev.bold || it.bold }]
    else ls ++ [lineOfItem it]
  | none => [lineOfItem it]

/-- The line-merge pass over the sorted runs. -/
def mergeRuns (l : List CItem) : List XmlLine := l.foldl mergeStep []

/-- The merged lines of a page (`lines` in the source). -/
def mergedLines (p : PageInput) : List XmlLine := mergeRuns (sortedRuns p)

/-- State of the block-emission loop: emitted strings, `prevTop`, `prevCol`. -/
structure EmitState where
  out : List String
  prevTop : ℚ
  prevCol : ℤ
deriving DecidableEq

/-- Initial emission state: `out = []`, `prevTop = -1`, `prevCol = -1`. -/
def initEmit : EmitState := ⟨[], -1, -1⟩

/-- One iteration of the block-emission loop: re-clean the line text, skip it
if empty, otherwise push a blank separator for a column change and another for
a vertical gap above `max(14, fontSize * 1.45)`, then push the line. -/
def emitStep (st : EmitState) (l : XmlLine) : EmitState :=
  let lineText : String := ⟨trimL (collapseWsL l.text.data)⟩
  if lineText = "" then st
  else
    let o1 := if st.prevTop ≠ -1 ∧ l.col ≠ st.prevCol then st.out ++ [""] else st.out
    let o2 :=
      if st.prevTop ≠ -1 ∧ l.top - st.prevTop > max 14 (l.fontSize * (29 / 20)) then
        o1 ++ [""]
      else o1
    ⟨o2 ++ [lineText], l.top, l.col⟩

/-- The block-emission loop over a list of lines. -/
def emitAll (st : EmitState) (ls : List XmlLine) : EmitState := ls.foldl emitStep st

/-- The emitted strings of a page (`out` in the source). -/
def outStrings (p : PageInput) : List String := (emitAll initEmit (mergedLines p)).out

/-- Final text assembly from emitted strings:
`out.join("\n").replace(/\n{3,}/g, "\n\n").trim()`. -/
def renderOut (out : List String) : String :=
  ⟨trimL (collapseNL (List.intercalate ['\n'] (out.map String.data)))⟩

/-- The final text of one page. -/
def pageText (p : PageInput) : String := renderOut (outStrings p)

/-- Aggregate statistics. -/
structure Stats where
  pages : ℕ
  lines : ℕ
  chars : ℕ
deriving DecidableEq

/-- The pipeline's result: per-page texts plus statistics. -/
structure SemanticPayload where
  pages : List String
  stats : Stats
deriving DecidableEq

/-- Per-page line count: `pageText ? pageText.split("\n").length : 0`. -/
def lineCountOf (s : String) : ℕ :=
  if s = "" then 0 else (splitNlL s.data).length

/-- The whole pipeline over a list of pages, accumulating `pages`,
`totalLines` and `totalChars` exactly as the source's page loop does. -/
def buildSemantic (ps : List PageInput) : SemanticPayload :=
  let t :=
    ps.foldl
      (fun (acc : List String × ℕ × ℕ) p =>
        let txt := pageText p
        (acc.1 ++ [txt], acc.2.1 + lineCountOf txt, acc.2.2 + txt.length))
      ([], 0, 0)
  ⟨t.1, ⟨t.1.length, t.2.1, t.2.2⟩⟩

/-- Model of the test `/[.!?;:]$/.test(s)`: the last character is terminal
punctuation. -/
def endsTerminal (s : String) : Bool :=
  match s.data.getLast? with
  | some c => c = '.' || c = '!' || c = '?' || c = ';' || c = ':'
  | none => false

/-- The classifier's line list:
`pageText.split("\n").map(s => s.trim()).filter(Boolean)`. -/
def semLines (s : String) : List String :=
  ((splitNlL s.data).map (fun l => (⟨trimL l⟩ : String))).filter (fun t => t != "")

/-- Whether the current partial block is non-empty and its last line ends in
terminal punctuation (`cur.length && /[.!?;:]$/.test(cur[cur.length - 1])`). -/
def lastEndsTerminal (cur : List String) : Bool :=
  match cur.getLast? with
  | some s => endsTerminal s
  | none => false

/-- One iteration of the classifier's block-grouping loop, on the state
(finished blocks, current block). -/
def semBlocksStep (st : List (List String) × List String) (line : String) :
    List (List String) × List String :=
  if line = "" then st
  else
    let st1 := if lastEndsTerminal st.2 then (st.1 ++ [st.2], ([] : List String)) else st
    (st1.1, st1.2 ++ [line])

/-- The classifier's block grouping: fold the loop, then flush the last
partial block. -/
def semBlocks (lines : List String) : List (List String) :=
  let st := lines.foldl semBlocksStep ([], [])
  if st.2 ≠ [] then st.1 ++ [st.2] else st.1

/-- Blocks of a page text, as `semanticHtml` computes them. -/
def semBlocksOf (s : String) : List (List String) := semBlocks (semLines s)

/-- A block's joined text: `b.join(" ").replace(/\s+/g, " ").trim()`. -/
def blockText (b : List String) : String :=
  ⟨trimL (collapseWsL (String.intercalate " " b).data)⟩

/-- Forget an item's bold flag (used to state that the pipeline's output does
not depend on it). -/
def eraseBoldI (i : Item) : Item := ⟨i.top, i.left, i.fontSize, false, i.text⟩

/-- Forget a column-tagged item's bold flag. -/
def eraseBoldC (c : CItem) : CItem := ⟨c.top, c.left, c.fontSize, false, c.text, c.col⟩

/-- Forget a merged line's bold flag. -/
def eraseBoldL (l : XmlLine) : XmlLine := ⟨l.col, l.top, l.left, l.fontSize, false, l.text⟩

/-- A fragment of a `<text>` element body: a plain character span, or a
character span wrapped in `<b> ... </b>`. -/
inductive Frag
  | plain (s : String)
  | bold (s : String)
deriving DecidableEq

/-- The raw markup a fragment contributes to the element body. -/
def Frag.render : Frag → List Char
  | .plain s => s.data
  | .bold s => "<b>".data ++ s.data ++ "</b>".data

/-- The character content of a fragment (without the emphasis wrapper). -/
def Frag.content : Frag → List Char
  | .plain s => s.data
  | .bold s => s.data

/-- Well-formedness of a fragment: its character span contains no angle
bracket (so the wrapper tags are the only markup). -/
def Frag.ok : Frag → Prop
  | .plain s => '<' ∉ s.data ∧ '>' ∉ s.data
  | .bold s => '<' ∉ s.data ∧ '>' ∉ s.data

/-- The body built from a fragment list. -/
def renderFrags (fs : List Frag) : List Char := (fs.map Frag.render).flatten

/-- The character content of a fragment list. -/
def contentFrags (fs : List Frag) : List Char := (fs.map Frag.content).flatten

/-- Two raw `<text>` elements differ only in the presence or absence of `<b>`
emphasis wrappers: same attributes, and both bodies render well-formed
fragment lists with the same character content. -/
def TextUpToBold (t1 t2 : RawText) : Prop :=
  t1.top = t2.top ∧ t1.left = t2.left ∧ t1.font = t2.font ∧
  ∃ fs1 fs2 : List Frag,
    (∀ f ∈ fs1, f.ok) ∧ (∀ f ∈ fs2, f.ok) ∧
    t1.body.data = renderFrags fs1 ∧ t2.body.data = renderFrags fs2 ∧
    contentFrags fs1 = contentFrags fs2

/-- Two pages differ only in `<b>` wrappers inside their text elements. -/
def PageUpToBold (p1 p2 : PageInput) : Prop :=
  p1.height = p2.height ∧ p1.width = p2.width ∧ p1.fonts = p2.fonts ∧
  List.Forall₂ TextUpToBold p1.texts p2.texts

/-- The sort key of the reading-order comparator, as a lexicographic triple. -/
def key (a : CItem) : ℤ ×ₗ (ℚ ×ₗ ℚ) := toLex (a.col, toLex (a.top, a.left))

/-- Spec-side block grouping (for the classifier claim): a new block starts
exactly after each line whose last character is terminal punctuation. -/
def groupTerm : List String → List (List String)
  | [] => []
  | l :: rest =>
    if endsTerminal l then [l] :: groupTerm rest
    else
      match groupTerm rest with
      | [] => [[l]]
      | b :: bs => (l :: b) :: bs

/-- Prepend a (possibly empty) partial block onto the first block of a block
list. -/
def prependBlock (cur : List String) (bs : List (List String)) : List (List String) :=
  if cur = [] then bs
  else
    match bs with
    | [] => [cur]
    | b :: rest => (cur ++ b) :: rest

/-- Closed form of the classifier's grouping loop starting from a partial
block (proof device relating `semBlocks` to `groupTerm`). -/
def glueTerm (cur : List String) : List String → List (List String)
  | [] => if cur ≠ [] then [cur] else []
  | l :: rest =>
    if lastEndsTerminal cur then cur :: glueTerm [l] rest
    else glueTerm (cur ++ [l]) rest

/-- Final flush of the classifier's grouping loop (`if (cur.length)
blocks.push(cur)`). -/
def flushBlocks (st : List (List String) × List String) : List (List String) :=
  if st.2 ≠ [] then st.1 ++ [st.2] else st.1

/-- The concrete page of the end-to-end scenario, with height and width as
parameters. -/
def scenarioPage (h w : ℚ) : PageInput :=
  ⟨h, w, [("0", 18), ("1", 12)],
   [⟨120, 80, "0", "<b>INTRODUCTION</b>"⟩,
    ⟨160, 80, "1", "Paragraph line one."⟩,
    ⟨176, 80, "1", "Paragraph line two."⟩]⟩

/-- A concrete two-column page: 26 runs on the far left, 26 on the far right. -/
def twoColPage : PageInput :=
  ⟨0, 600, [],
   List.replicate 26 (⟨100, 50, "f", "x"⟩ : RawText) ++
     List.replicate 26 (⟨100, 500, "f", "x"⟩ : RawText)⟩

/-! General helper lemmas. -/

theorem mem_of_getLastQ {α : Type _} {l : List α} {a : α} (h : l.getLast? = some a) :
    a ∈ l := by
  have ha : a ∈ l.getLast? := by simp [h, Option.mem_def]
  rcases List.mem_getLast?_eq_getLast ha with ⟨hne, heq⟩
  exact heq ▸ List.getLast_mem hne

theorem dropWhile_head_false {α : Type _} (p : α → Bool) :
    ∀ (l : List α) (d : α) (tl : List α), l.dropWhile p = d :: tl → p d = false := by
  intro l
  induction l with
  | nil => intro d tl h; simp [List.dropWhile] at h
  | cons c rest ih =>
    intro d tl h
    by_cases hc : p c
    · rw [List.dropWhile_cons_of_pos hc] at h
      exact ih d tl h
    · rw [List.dropWhile_cons_of_neg hc] at h
      cases h
      exact Bool.eq_false_iff.mpr hc

/-! Claim C4: characterization of the line-merge step. -/

/-- C4: during the single merge pass, a run is appended to the current line
accumulator (the last element of `lines`) exactly when that accumulator
exists, has the same `col`, has its own `top` (the first contributing run's
`top`) within 3 of the run's `top`, and its `left` within (strictly) 500 of
the run's `left`; the merge appends the run's text space-separated, takes the
max of the font sizes and the OR of the bold flags.  Otherwise a fresh line
seeded from the run is pushed.  Also: two runs satisfying the conditions
merge into the single described line. -/
theorem merge_step_characterization :
    (∀ (ls : List XmlLine) (it : CItem),
      mergeStep ls it =
        match ls.getLast? with
        | some prev =>
          if prev.col = it.col ∧ |prev.top - it.top| ≤ 3 ∧ |prev.left - it.left| < 500 then
            ls.dropLast ++
              [⟨prev.col, prev.top, prev.left, max prev.fontSize it.fontSize,
                prev.bold || it.bold, prev.text ++ " " ++ it.text⟩]
          else ls ++ [lineOfItem it]
        | none => [lineOfItem it]) ∧
    (∀ r1 r2 : CItem,
      r1.col = r2.col → |r1.top - r2.top| ≤ 3 → |r1.left - r2.left| < 500 →
      mergeRuns [r1, r2] =
        [⟨r1.col, r1.top, r1.left, max r1.fontSize r2.fontSize,
          r1.bold || r2.bold, r1.text ++ " " ++ r2.text⟩]) := by
  constructor
  · intro ls it
    rfl
  · intro r1 r2 h1 h2 h3
    show mergeStep (mergeStep [] r1) r2 = _
    have e1 : mergeStep [] r1 = [lineOfItem r1] := rfl
    rw [e1]
    have hLast : [lineOfItem r1].getLast? = some (lineOfItem r1) := rfl
    simp only [mergeStep, hLast]
    rw [if_pos ⟨h1, h2, h3⟩]
    rfl

/-- Witness for C4 at a concrete pair of runs. -/
theorem merge_step_characterization_witness :
    (⟨100, 80, 12, false, "foo", 0⟩ : CItem).col = (⟨102, 200, 14, true, "bar", 0⟩ : CItem).col ∧
    mergeRuns [⟨100, 80, 12, false, "foo", 0⟩, ⟨102, 200, 14, true, "bar", 0⟩] =
      [⟨0, 100, 80, 14, true, "foo bar"⟩] := by
  refine ⟨rfl, ?_⟩
  have h := merge_step_characterization.2
    ⟨100, 80, 12, false, "foo", 0⟩ ⟨102, 200, 14, true, "bar", 0⟩
    (by decide) (by norm_num) (by norm_num)
  rw [h]
  norm_num
  decide

/-! Claim C5: margin suppression. -/

/-- The page text only depends on the page through its width and its
collected items. -/
theorem pageText_congr (p q : PageInput) (hw : p.width = q.width)
    (hi : collectItems p = collectItems q) : pageText p = pageText q := by
  simp only [pageText, outStrings, mergedLines, sortedRuns, taggedRuns, twoColOf,
    leftCount, rightCount, midOf, hw, hi]

/-- C5: on a page with strictly positive height, a run whose `top` is below 80
or above `height - 80` is dropped by the run collector, and removing it from
the page leaves the collected items and the page's final text unchanged. -/
theorem margin_suppression (h w : ℚ) (fonts : List (String × ℚ))
    (l1 l2 : List RawText) (r : RawText)
    (hh : 0 < h) (hr : r.top < 80 ∨ r.top > h - 80) :
    collectItems ⟨h, w, fonts, l1 ++ r :: l2⟩ = collectItems ⟨h, w, fonts, l1 ++ l2⟩ ∧
    pageText ⟨h, w, fonts, l1 ++ r :: l2⟩ = pageText ⟨h, w, fonts, l1 ++ l2⟩ := by
  have hnone : itemOfText h fonts r = none := by
    unfold itemOfText
    by_cases ht : normText r.body = ""
    · simp [ht]
    · rw [if_neg ht, if_pos ⟨hh, hr⟩]
  have hc : collectItems ⟨h, w, fonts, l1 ++ r :: l2⟩ = collectItems ⟨h, w, fonts, l1 ++ l2⟩ := by
    simp only [collectItems, List.filterMap_append, List.filterMap_cons, hnone]
  exact ⟨hc, pageText_congr _ _ rfl hc⟩

/-- Witness for C5: a concrete page with one surviving and one margin run. -/
theorem margin_suppression_witness :
    (0 : ℚ) < 800 ∧ ((10 : ℚ) < 80 ∨ (10 : ℚ) > 800 - 80) ∧
    pageText ⟨800, 600, [], [⟨100, 50, "f", "Hello there."⟩, ⟨10, 50, "f", "HEADER"⟩]⟩ =
      pageText ⟨800, 600, [], [⟨100, 50, "f", "Hello there."⟩]⟩ := by
  refine ⟨by norm_num, Or.inl (by norm_num), ?_⟩
  exact (margin_suppression 800 600 [] [⟨100, 50, "f", "Hello there."⟩] []
    ⟨10, 50, "f", "HEADER"⟩ (by norm_num) (Or.inl (by norm_num))).2

/-! Claim C10: the all-caps heading test. -/

theorem buildFold_eq (ps : List PageInput) (out : List String) (a b : ℕ) :
    ps.foldl
      (fun (acc : List String × ℕ × ℕ) p =>
        let txt := pageText p
        (acc.1 ++ [txt], acc.2.1 + lineCountOf txt, acc.2.2 + txt.length))
      (out, a, b) =
    (out ++ ps.map pageText,
     a + (ps.map (fun p => lineCountOf (pageText p))).sum,
     b + (ps.map (fun p => (pageText p).length)).sum) := by
  induction ps generalizing out a b with
  | nil => simp
  | cons p rest ih =>
    simp only [List.foldl_cons, ih, List.map_cons, List.sum_cons]
    refine Prod.ext ?_ (Prod.ext ?_ ?_) <;> simp <;> omega

/-- Closed form of the pipeline over a page list. -/
theorem buildSemantic_eq (ps : List PageInput) :
    buildSemantic ps =
      ⟨ps.map pageText,
       ⟨ps.length,
        (ps.map (fun p => lineCountOf (pageText p))).sum,
        (ps.map (fun p => (pageText p).length)).sum⟩⟩ := by
  unfold buildSemantic
  rw [buildFold_eq]
  simp

theorem splitNlL_ne_nil (l : List Char) : splitNlL l ≠ [] := by
  cases l with
  | nil => simp [splitNlL]
  | cons c rest =>
    by_cases hc : c = '\n'
    · simp [splitNlL, hc]
    · simp only [splitNlL, if_neg hc]
      cases h : splitNlL rest <;> simp

theorem splitNlL_length (l : List Char) : (splitNlL l).length = l.count '\n' + 1 := by
  induction l with
  | nil => simp [splitNlL]
  | cons c rest ih =>
    by_cases hc : c = '\n'
    · simp [splitNlL, hc, ih, List.count_cons]
    · simp only [splitNlL, if_neg hc]
      cases h : splitNlL rest with
      | nil => exact absurd h (splitNlL_ne_nil rest)
      | cons p ps =>
        rw [h] at ih
        simp only [List.length_cons] at ih ⊢
        rw [ih, List.count_cons]
        simp [hc]

/-- C7: the returned stats are consistent: `chars` is the total length of the
page texts, `lines` is the total of the per-page newline-delimited segment
counts (0 for an empty page, newline count plus one otherwise), and `pages`
is the number of pages processed. -/
theorem stats_consistency (ps : List PageInput) :
    (buildSemantic ps).stats.chars = ((buildSemantic ps).pages.map String.length).sum ∧
    (buildSemantic ps).stats.lines =
      ((buildSemantic ps).pages.map
        (fun s => if s = "" then 0 else s.data.count '\n' + 1)).sum ∧
    (buildSemantic ps).stats.pages = ps.length := by
  rw [buildSemantic_eq]
  refine ⟨by simp only [List.map_map]; rfl, ?_, rfl⟩
  simp only [List.map_map]
  have : (fun s => if s = "" then 0 else s.data.count '\n' + 1) ∘ pageText =
      fun p => lineCountOf (pageText p) := by
    funext p
    simp [lineCountOf, splitNlL_length]
  rw [this]

/-- C8: a page with no surviving runs contributes the empty string as its
text, adds 0 to the aggregate line and character counts, and is still counted
in `stats.pages`. -/
theorem empty_page_not_error (p : PageInput) (l1 l2 : List PageInput)
    (h : collectItems p = []) :
    pageText p = "" ∧
    (buildSemantic (l1 ++ p :: l2)).stats.pages = l1.length + l2.length + 1 ∧
    (buildSemantic (l1 ++ p :: l2)).stats.lines = (buildSemantic (l1 ++ l2)).stats.lines ∧
    (buildSemantic (l1 ++ p :: l2)).stats.chars = (buildSemantic (l1 ++ l2)).stats.chars := by
  have htext : pageText p = "" := by
    simp only [pageText, outStrings, mergedLines, sortedRuns, taggedRuns, h]
    rfl
  refine ⟨htext, ?_, ?_, ?_⟩ <;>
    simp [buildSemantic_eq, htext, lineCountOf, List.sum_append] <;> omega

/-- Witness for C8: a concrete page whose only runs are filtered out (one
margin run, one bare page number). -/
theorem empty_page_not_error_witness :
    collectItems ⟨800, 600, [], [⟨10, 50, "f", "HEADER"⟩, ⟨400, 50, "f", "42"⟩]⟩ = [] ∧
    pageText ⟨800, 600, [], [⟨10, 50, "f", "HEADER"⟩, ⟨400, 50, "f", "42"⟩]⟩ = "" := by
  refine ⟨by decide, ?_⟩
  exact (empty_page_not_error _ [] [] (by decide)).1

/-! Claim C1: the end-to-end scenario. -/

/-- Evaluation helper: a run that survives all filters is collected as an
item. -/
theorem itemOfText_eval (h : ℚ) (fonts : List (String × ℚ)) (t : RawText) (txt : String)
    (ht : normText t.body = txt) (hne : ¬ (txt = ""))
    (hm : ¬ (0 < h ∧ (t.top < 80 ∨ t.top > h - 80)))
    (h2 : matchPdfNum txt.data = false) (h3 : matchAdobe txt.data = false)
    (h4 : matchPageNum txt.data = false) (h5 : matchBlankPage txt.data = false) :
    itemOfText h fonts t = some ⟨t.top, t.left, lookupFont fonts t.font, boldOf t.body, txt⟩ := by
  simp only [itemOfText, ht, hne, hm, h2, h3, h4, h5, if_false, ite_false]
  simp

/-- On the scenario page all three runs survive filtering whenever the height
is at least 256 (so that no `top` is within 80 of an edge). -/
theorem scenario_items (h w : ℚ) (hbig : 256 ≤ h) :
    collectItems (scenarioPage h w) =
      [⟨120, 80, 18, true, "INTRODUCTION"⟩,
       ⟨160, 80, 12, false, "Paragraph line one."⟩,
       ⟨176, 80, 12, false, "Paragraph line two."⟩] := by
  have m1 : ¬ ((0:ℚ) < h ∧ ((120:ℚ) < 80 ∨ (120:ℚ) > h - 80)) := by
    rintro ⟨-, hc | hc⟩
    · norm_num at hc
    · linarith
  have m2 : ¬ ((0:ℚ) < h ∧ ((160:ℚ) < 80 ∨ (160:ℚ) > h - 80)) := by
    rintro ⟨-, hc | hc⟩
    · norm_num at hc
    · linarith
  have m3 : ¬ ((0:ℚ) < h ∧ ((176:ℚ) < 80 ∨ (176:ℚ) > h - 80)) := by
    rintro ⟨-, hc | hc⟩
    · norm_num at hc
    · linarith
  have e1 : itemOfText h [("0", 18), ("1", 12)] ⟨120, 80, "0", "<b>INTRODUCTION</b>"⟩ =
      some ⟨120, 80, 18, true, "INTRODUCTION"⟩ := by
    rw [itemOfText_eval h _ _ "INTRODUCTION" (by decide) (by decide) m1
      (by decide) (by decide) (by decide) (by decide)]
    decide
  have e2 : itemOfText h [("0", 18), ("1", 12)] ⟨160, 80, "1", "Paragraph line one."⟩ =
      some ⟨160, 80, 12, false, "Paragraph line one."⟩ := by
    rw [itemOfText_eval h _ _ "Paragraph line one." (by decide) (by decide) m2
      (by decide) (by decide) (by decide) (by decide)]
    decide
  have e3 : itemOfText h [("0", 18), ("1", 12)] ⟨176, 80, "1", "Paragraph line two."⟩ =
      some ⟨176, 80, 12, false, "Paragraph line two."⟩ := by
    rw [itemOfText_eval h _ _ "Paragraph line two." (by decide) (by decide) m3
      (by decide) (by decide) (by decide) (by decide)]
    decide
  simp only [collectItems, scenarioPage, List.filterMap_cons, List.filterMap_nil, e1, e2, e3]

/-- With only three runs the scenario page can never reach the 26-run
two-column thresholds, whatever its width. -/
theorem scenario_single_column (h w : ℚ) (hbig : 256 ≤ h) :
    twoColOf (scenarioPage h w) = false := by
  have hlc : leftCount (scenarioPage h w) ≤ 3 := by
    rw [leftCount, scenario_items h w hbig]
    exact le_trans (List.length_filter_le _ _) (by norm_num)
  have hn : ¬ (25 < leftCount (scenarioPage h w)) := by omega
  simp [twoColOf, hn]

/-- C1 (amended): on the end-to-end scenario page (height at least 256 so
that all three runs survive margin filtering, any width), the final page text
is `INTRODUCTION`, a blank line, then `Paragraph line one.` and
`Paragraph line two.` as two separate lines of the same block: the two
paragraph runs are 16 units apart vertically, more than the 3-unit line-merge
jitter, so they are not space-joined onto one line, and the 16-unit gap is
below `max(14, 12 * 1.45) = 17.4`, so no blank line separates them. -/
theorem end_to_end_scenario (h w : ℚ) (hbig : 256 ≤ h) :
    pageText (scenarioPage h w) =
      "INTRODUCTION\n\nParagraph line one.\nParagraph line two." := by
  simp only [pageText, outStrings, mergedLines, sortedRuns, taggedRuns,
    scenario_items h w hbig, scenario_single_column h w hbig, List.map_cons, List.map_nil,
    tagItem, Bool.false_eq_true, false_and, if_false, ite_false]
  decide

/-- Witness for the amended C1 at height 800 and width 600. -/
theorem end_to_end_scenario_witness :
    (256 : ℚ) ≤ 800 ∧
    pageText (scenarioPage 800 600) =
      "INTRODUCTION\n\nParagraph line one.\nParagraph line two." :=
  ⟨by norm_num, end_to_end_scenario 800 600 (by norm_num)⟩

/-- Counterexample to C1 as stated: at height 800 and width 600 (all three
runs survive margin filtering) the two paragraph runs are not space-joined
onto one output line; the page text keeps them as two newline-separated
lines, so it differs from the claimed string. -/
theorem end_to_end_scenario_counterexample :
    pageText (scenarioPage 800 600) =
      "INTRODUCTION\n\nParagraph line one.\nParagraph line two." ∧
    pageText (scenarioPage 800 600) ≠
      "INTRODUCTION\n\nParagraph line one. Paragraph line two." := by
  constructor
  · decide
  · decide

/-! Claim C2: the classifier's block grouping. -/

theorem semBlocks_eq_flush (lines : List String) :
    semBlocks lines = flushBlocks (lines.foldl semBlocksStep ([], [])) := rfl

theorem lastET_concat (cur : List String) (l : String) :
    lastEndsTerminal (cur ++ [l]) = endsTerminal l := by
  simp [lastEndsTerminal, List.getLast?_concat]

theorem prependBlock_cons (cur : List String) (b : List String) (bs : List (List String)) :
    prependBlock cur (b :: bs) = (cur ++ b) :: bs := by
  by_cases hc : cur = [] <;> simp [prependBlock, hc]

theorem groupTerm_cons_pos (l : String) (rest : List String) (hl : endsTerminal l = true) :
    groupTerm (l :: rest) = [l] :: groupTerm rest := by
  simp [groupTerm, hl]

theorem groupTerm_cons_neg (l : String) (rest : List String) (hl : endsTerminal l = false) :
    groupTerm (l :: rest) = prependBlock [l] (groupTerm rest) := by
  cases h : groupTerm rest <;> simp [groupTerm, hl, prependBlock, h]

theorem glueTerm_eq (lines : List String) : ∀ cur : List String,
    (lastEndsTerminal cur = true → glueTerm cur lines = cur :: groupTerm lines) ∧
    (lastEndsTerminal cur = false → glueTerm cur lines = prependBlock cur (groupTerm lines)) := by
  induction lines with
  | nil =>
    intro cur
    constructor
    · intro hcur
      have hne : cur ≠ [] := by
        intro he
        rw [he] at hcur
        simp [lastEndsTerminal] at hcur
      simp [glueTerm, groupTerm, hne]
    · intro hcur
      by_cases hne : cur = [] <;> simp [glueTerm, groupTerm, prependBlock, hne]
  | cons l rest ih =>
    intro cur
    constructor
    · intro hcur
      rw [glueTerm, if_pos hcur]
      by_cases hl : endsTerminal l
      · rw [(ih [l]).1 (by simp [lastEndsTerminal, hl]), groupTerm_cons_pos l rest hl]
      · rw [(ih [l]).2 (by simp [lastEndsTerminal]; exact Bool.eq_false_iff.mpr hl),
          groupTerm_cons_neg l rest (Bool.eq_false_iff.mpr hl)]
    · intro hcur
      rw [glueTerm, if_neg (by rw [hcur]; exact Bool.false_ne_true)]
      by_cases hl : endsTerminal l
      · rw [(ih (cur ++ [l])).1 (by rw [lastET_concat]; exact hl),
          groupTerm_cons_pos l rest hl, prependBlock_cons]
      · have hl2 : endsTerminal l = false := Bool.eq_false_iff.mpr hl
        rw [(ih (cur ++ [l])).2 (by rw [lastET_concat]; exact hl2),
          groupTerm_cons_neg l rest hl2]
        cases h : groupTerm rest with
        | nil =>
          by_cases hc : cur = [] <;> simp [prependBlock, hc]
        | cons b bs =>
          rw [prependBlock_cons, prependBlock_cons, prependBlock_cons, List.append_assoc]

theorem semFold_eq (lines : List String) :
    ∀ (blocks : List (List String)) (cur : List String),
    (∀ x ∈ lines, x ≠ "") →
    flushBlocks (lines.foldl semBlocksStep (blocks, cur)) = blocks ++ glueTerm cur lines := by
  induction lines with
  | nil =>
    intro blocks cur _
    by_cases hc : cur = [] <;> simp [flushBlocks, glueTerm, hc]
  | cons l rest ih =>
    intro blocks cur hno
    have hl : l ≠ "" := hno l (by simp)
    have hrest : ∀ x ∈ rest, x ≠ "" := fun x hx => hno x (by simp [hx])
    rw [List.foldl_cons]
    by_cases hcur : lastEndsTerminal cur
    · have hstep : semBlocksStep (blocks, cur) l = (blocks ++ [cur], [l]) := by
        simp [semBlocksStep, hl, hcur]
      rw [hstep, ih _ _ hrest, glueTerm, if_pos hcur, List.append_assoc]
      rfl
    · have hcur2 : lastEndsTerminal cur = false := Bool.eq_false_iff.mpr hcur
      have hstep : semBlocksStep (blocks, cur) l = (blocks, cur ++ [l]) := by
        simp [semBlocksStep, hl, hcur2]
      rw [hstep, ih _ _ hrest, glueTerm, if_neg (by rw [hcur2]; exact Bool.false_ne_true)]

/-- C2 (amended): the classifier first discards blank lines entirely
(`filter(Boolean)` after trimming), then groups the remaining lines into
blocks by starting a new block exactly after each line whose last character
is one of `.!?;:`.  Blank-line boundaries therefore have no effect on the
grouping; in particular two consecutive lines with no blank line between them
end up in different blocks whenever the first ends in terminal punctuation. -/
theorem classifier_blocks (s : String) :
    semBlocksOf s = groupTerm (semLines s) := by
  have hno : ∀ x ∈ semLines s, x ≠ "" := by
    intro x hx
    rw [semLines, List.mem_filter] at hx
    simpa using hx.2
  rw [semBlocksOf, semBlocks_eq_flush, semFold_eq _ _ _ hno]
  have h2 := (glueTerm_eq (semLines s) []).2 rfl
  rw [h2]
  simp [prependBlock]

/-- Counterexample to C2 as stated: the page text `"A.\nB."` has two
consecutive lines with no blank line between them, yet the classifier puts
them into two different blocks (because the first ends in `.`), not into the
same block as the claim requires. -/
theorem classifier_blocks_counterexample :
    semBlocksOf "A.\nB." = [["A."], ["B."]] ∧
    semBlocksOf "A.\nB." ≠ [["A.", "B."]] := ⟨by decide, by decide⟩

/-! Claim C6: newline cap and trimming of the final page text. -/

theorem collapseNLF_irrel : ∀ f1 : Nat, ∀ (f2 : Nat) (l : List Char),
    l.length ≤ f1 → l.length ≤ f2 → collapseNLF f1 l = collapseNLF f2 l := by
  intro f1
  induction f1 with
  | zero =>
    intro f2 l h1 _
    have : l = [] := List.length_eq_zero.mp (Nat.le_zero.mp h1)
    subst this
    cases f2 <;> rfl
  | succ f1 ih =>
    intro f2 l h1 h2
    cases l with
    | nil => cases f2 <;> rfl
    | cons c rest =>
      cases f2 with
      | zero => simp at h2
      | succ f2 =>
        simp only [List.length_cons, Nat.succ_le_succ_iff] at h1 h2
        have hdw : (rest.dropWhile (fun d => d = '\n')).length ≤ rest.length :=
          (List.dropWhile_suffix _).length_le
        by_cases hc : c = '\n'
        · simp only [collapseNLF, if_pos hc]
          rw [ih f2 _ (le_trans hdw h1) (le_trans hdw h2)]
        · simp only [collapseNLF, if_neg hc]
          rw [ih f2 rest h1 h2]

theorem collapseNL_cons_ne (c : Char) (rest : List Char) (hc : ¬ (c = '\n')) :
    collapseNL (c :: rest) = c :: collapseNL rest := by
  show collapseNLF (rest.length + 1) (c :: rest) = _
  simp only [collapseNLF, if_neg hc]
  rfl

theorem collapseNL_cons_nl (rest : List Char) :
    collapseNL ('\n' :: rest) =
      (if 2 ≤ (rest.takeWhile (fun d => d = '\n')).length then ['\n', '\n']
       else '\n' :: rest.takeWhile (fun d => d = '\n')) ++
        collapseNL (rest.dropWhile (fun d => d = '\n')) := by
  show collapseNLF (rest.length + 1) ('\n' :: rest) = _
  simp only [collapseNLF, if_true, eq_self_iff_true]
  congr 1
  exact collapseNLF_irrel rest.length _ _ ((List.dropWhile_suffix _).length_le) le_rfl

theorem collapseNL_chunk (rest : List Char) :
    (if 2 ≤ (rest.takeWhile (fun d => d = '\n')).length then ['\n', '\n']
     else '\n' :: rest.takeWhile (fun d => d = '\n')) = ['\n'] ∨
    (if 2 ≤ (rest.takeWhile (fun d => d = '\n')).length then ['\n', '\n']
     else '\n' :: rest.takeWhile (fun d => d = '\n')) = ['\n', '\n'] := by
  by_cases h2 : 2 ≤ (rest.takeWhile (fun d => d = '\n')).length
  · right
    rw [if_pos h2]
  · rw [if_neg h2]
    cases htw : rest.takeWhile (fun d => d = '\n') with
    | nil => left; rfl
    | cons d tl =>
      cases tl with
      | nil =>
        right
        have hd : d = '\n' := by
          have hmem : d ∈ rest.takeWhile (fun d => d = '\n') := by
            rw [htw]; simp
          have := List.mem_takeWhile_imp hmem
          simpa using this
        rw [hd]
      | cons e tl2 =>
        exfalso
        rw [htw] at h2
        simp at h2

theorem collapseNL_not_nl_head (l : List Char) (hl : ∀ tl, l ≠ '\n' :: tl) :
    ∀ tl, collapseNL l ≠ '\n' :: tl := by
  cases l with
  | nil => intro tl; simp [collapseNL, collapseNLF]
  | cons c rest =>
    have hc : ¬ (c = '\n') := by
      intro he
      exact hl rest (by rw [he])
    rw [collapseNL_cons_ne c rest hc]
    intro tl habs
    have h1 : c = '\n' := by
      have h2 := congrArg (fun x => x.head?) habs
      simpa using h2
    exact hc h1

theorem noTriple_cons_nl (M : List Char)
    (hM : ¬ (['\n', '\n', '\n'] <:+: M))
    (hhead : ∀ tl, M ≠ '\n' :: tl) :
    ¬ (['\n', '\n', '\n'] <:+: '\n' :: M) ∧
    ¬ (['\n', '\n', '\n'] <:+: '\n' :: '\n' :: M) := by
  have h1 : ¬ (['\n', '\n', '\n'] <:+: '\n' :: M) := by
    intro habs
    rcases List.infix_cons_iff.mp habs with hpre | hinf
    · rw [List.cons_prefix_cons] at hpre
      rcases hpre.2 with ⟨t, ht⟩
      exact hhead ('\n' :: t) (by rw [← ht]; rfl)
    · exact hM hinf
  refine ⟨h1, ?_⟩
  intro habs
  rcases List.infix_cons_iff.mp habs with hpre | hinf
  · rw [List.cons_prefix_cons] at hpre
    have hpre2 := hpre.2
    rw [List.cons_prefix_cons] at hpre2
    rcases hpre2.2 with ⟨t, ht⟩
    exact hhead t (by rw [← ht]; rfl)
  · exact h1 hinf

theorem collapseNL_noTriple : ∀ (n : Nat) (l : List Char), l.length ≤ n →
    ¬ (['\n', '\n', '\n'] <:+: collapseNL l) := by
  intro n
  induction n with
  | zero =>
    intro l hl
    have : l = [] := List.length_eq_zero.mp (Nat.le_zero.mp hl)
    subst this
    simp [collapseNL, collapseNLF]
  | succ n ih =>
    intro l hl
    cases l with
    | nil => simp [collapseNL, collapseNLF]
    | cons c rest =>
      simp only [List.length_cons, Nat.succ_le_succ_iff] at hl
      by_cases hc : c = '\n'
      · subst hc
        rw [collapseNL_cons_nl]
        have hMno : ¬ (['\n', '\n', '\n'] <:+: collapseNL (rest.dropWhile (fun d => d = '\n'))) := by
          apply ih
          exact le_trans ((List.dropWhile_suffix _).length_le) hl
        have hMhead : ∀ tl, collapseNL (rest.dropWhile (fun d => d = '\n')) ≠ '\n' :: tl := by
          apply collapseNL_not_nl_head
          intro tl habs
          have := dropWhile_head_false (fun d => d = '\n') rest '\n' tl habs
          simp at this
        rcases collapseNL_chunk rest with h1 | h2
        · rw [h1]
          exact (noTriple_cons_nl _ hMno hMhead).1
        · rw [h2]
          exact (noTriple_cons_nl _ hMno hMhead).2
      · rw [collapseNL_cons_ne c rest hc]
        intro habs
        rcases List.infix_cons_iff.mp habs with hpre | hinf
        · rw [List.cons_prefix_cons] at hpre
          exact hc hpre.1.symm
        · exact ih rest hl hinf

theorem trimL_within (l : List Char) : trimL l <:+: l := by
  unfold trimL
  have h1 : l.dropWhile isJsSpace <:+ l := List.dropWhile_suffix _
  have h2 : (l.dropWhile isJsSpace).reverse.dropWhile isJsSpace <:+
      (l.dropWhile isJsSpace).reverse := List.dropWhile_suffix _
  have h3 : ((l.dropWhile isJsSpace).reverse.dropWhile isJsSpace).reverse <+:
      l.dropWhile isJsSpace := by
    rw [← List.reverse_reverse (l.dropWhile isJsSpace)] at h2
    exact List.reverse_suffix.mp (by simpa using h2)
  exact h3.isInfix.trans h1.isInfix

theorem trimL_head_not_space (l : List Char) (c : Char) (h : (trimL l).head? = some c) :
    isJsSpace c = false := by
  unfold trimL at h
  rw [List.head?_reverse] at h
  have hY : (l.dropWhile isJsSpace).reverse.dropWhile isJsSpace ≠ [] := by
    intro he
    rw [he] at h
    simp at h
  rcases List.dropWhile_suffix (l := (l.dropWhile isJsSpace).reverse) isJsSpace with ⟨a, ha⟩
  have hglast : ((l.dropWhile isJsSpace).reverse).getLast? = some c := by
    rw [← ha, List.getLast?_append_of_ne_nil a hY, h]
  rw [List.getLast?_reverse] at hglast
  cases hm : l.dropWhile isJsSpace with
  | nil => rw [hm] at hglast; simp at hglast
  | cons d tl =>
    rw [hm] at hglast
    simp at hglast
    have := dropWhile_head_false isJsSpace l d tl hm
    rwa [hglast] at this

theorem trimL_getLast_not_space (l : List Char) (c : Char)
    (h : (trimL l).getLast? = some c) : isJsSpace c = false := by
  unfold trimL at h
  rw [List.getLast?_reverse] at h
  cases hm : (l.dropWhile isJsSpace).reverse.dropWhile isJsSpace with
  | nil => rw [hm] at h; simp at h
  | cons d tl =>
    rw [hm] at h
    simp at h
    have := dropWhile_head_false isJsSpace _ d tl hm
    rwa [h] at this

/-- C6: a page's final text never contains three consecutive newlines, and
has no leading or trailing whitespace (its first and last characters, when
they exist, are not whitespace). -/
theorem newline_cap_and_trimmed (p : PageInput) :
    ¬ (['\n', '\n', '\n'] <:+: (pageText p).data) ∧
    (∀ c, (pageText p).data.head? = some c → isJsSpace c = false) ∧
    (∀ c, (pageText p).data.getLast? = some c → isJsSpace c = false) := by
  have hdata : (pageText p).data =
      trimL (collapseNL (List.intercalate ['\n'] ((outStrings p).map String.data))) := rfl
  refine ⟨?_, ?_, ?_⟩
  · rw [hdata]
    intro habs
    exact collapseNL_noTriple _ _ le_rfl (habs.trans (trimL_within _))
  · intro c hc
    rw [hdata] at hc
    exact trimL_head_not_space _ _ hc
  · intro c hc
    rw [hdata] at hc
    exact trimL_getLast_not_space _ _ hc

/-! Claim C3: two-column classification and ordering. -/

theorem runLtB_iff (a b : CItem) : runLtB a b = true ↔ key a < key b := by
  simp only [runLtB, key, Bool.or_eq_true, Bool.and_eq_true, decide_eq_true_eq,
    Prod.Lex.lt_iff]

theorem runLtB_false_iff (a b : CItem) : runLtB a b = false ↔ key b ≤ key a := by
  rw [Bool.eq_false_iff, Ne, runLtB_iff, not_lt]

theorem mem_insertRun (a : CItem) (l : List CItem) (x : CItem) :
    x ∈ insertRun a l ↔ x = a ∨ x ∈ l := by
  induction l with
  | nil => simp [insertRun]
  | cons b bs ih =>
    by_cases h : runLtB b a
    · rw [insertRun, if_pos h]
      simp only [List.mem_cons, ih]
      tauto
    · rw [insertRun, if_neg h]
      simp only [List.mem_cons]

theorem pairwise_insertRun (a : CItem) (l : List CItem)
    (hl : l.Pairwise (fun x y => key x ≤ key y)) :
    (insertRun a l).Pairwise (fun x y => key x ≤ key y) := by
  induction l with
  | nil => simp [insertRun]
  | cons b bs ih =>
    rcases List.pairwise_cons.mp hl with ⟨hb, hbs⟩
    by_cases h : runLtB b a
    · rw [insertRun, if_pos h]
      refine List.pairwise_cons.mpr ⟨?_, ih hbs⟩
      intro x hx
      rcases (mem_insertRun a bs x).mp hx with rfl | hxbs
      · exact le_of_lt ((runLtB_iff b x).mp h)
      · exact hb x hxbs
    · rw [insertRun, if_neg h]
      have ha : key a ≤ key b := (runLtB_false_iff b a).mp (Bool.eq_false_iff.mpr h)
      refine List.pairwise_cons.mpr ⟨?_, hl⟩
      intro x hx
      rcases List.mem_cons.mp hx with rfl | hxbs
      · exact ha
      · exact le_trans ha (hb x hxbs)

theorem pairwise_sortRuns (l : List CItem) :
    (sortRuns l).Pairwise (fun x y => key x ≤ key y) := by
  induction l with
  | nil => simp [sortRuns]
  | cons a rest ih => exact pairwise_insertRun a _ ih

theorem mem_sortRuns (l : List CItem) (x : CItem) : x ∈ sortRuns l ↔ x ∈ l := by
  induction l with
  | nil => simp [sortRuns]
  | cons a rest ih =>
    show x ∈ insertRun a (sortRuns rest) ↔ _
    rw [mem_insertRun]
    simp [ih]

theorem col_le_of_key_le (a b : CItem) (h : key a ≤ key b) : a.col ≤ b.col := by
  rw [key, key, Prod.Lex.le_iff] at h
  rcases h with h1 | ⟨h1, -⟩
  · exact le_of_lt h1
  · exact le_of_eq h1

theorem zero_one_split {α : Type _} (f : α → ℤ) :
    ∀ l : List α, l.Pairwise (fun x y => f x ≤ f y) → (∀ x ∈ l, f x = 0 ∨ f x = 1) →
    l = l.filter (fun x => decide (f x = 0)) ++ l.filter (fun x => decide (f x = 1)) := by
  intro l
  induction l with
  | nil => simp
  | cons x t ih =>
    intro hp h01
    rcases List.pairwise_cons.mp hp with ⟨hx, ht⟩
    rcases h01 x (by simp) with h0 | h1
    · rw [List.filter_cons_of_pos (by simp [h0]), List.filter_cons_of_neg (by simp [h0])]
      simp only [List.cons_append]
      exact congrArg (x :: ·) (ih ht (fun y hy => h01 y (by simp [hy])))
    · have hall : ∀ y ∈ t, f y = 1 := by
        intro y hy
        rcases h01 y (by simp [hy]) with h0y | h1y
        · exfalso
          have := hx y hy
          omega
        · exact h1y
      have hf0 : List.filter (fun y => decide (f y = 0)) (x :: t) = [] := by
        rw [List.filter_eq_nil_iff]
        intro a ha
        rcases List.mem_cons.mp ha with rfl | hat
        · simp [h1]
        · simp [hall a hat]
      have hf1 : List.filter (fun y => decide (f y = 1)) (x :: t) = x :: t := by
        rw [List.filter_eq_self]
        intro a ha
        rcases List.mem_cons.mp ha with rfl | hat
        · simp [h1]
        · simp [hall a hat]
      rw [hf0, hf1]
      rfl

theorem mergeStep_last (ls : List XmlLine) (prev : XmlLine) (it : CItem)
    (h : ls.getLast? = some prev) :
    mergeStep ls it =
      if prev.col = it.col ∧ |prev.top - it.top| ≤ 3 ∧ |prev.left - it.left| < 500 then
        ls.dropLast ++
          [{ prev with
              text := prev.text ++ " " ++ it.text
              fontSize := max prev.fontSize it.fontSize
              bold := prev.bold || it.bold }]
      else ls ++ [lineOfItem it] := by
  unfold mergeStep
  rw [h]

theorem mergeStep_none (ls : List XmlLine) (it : CItem) (h : ls.getLast? = none) :
    mergeStep ls it = [lineOfItem it] := by
  unfold mergeStep
  rw [h]

theorem mergeStep_ne_nil (ls : List XmlLine) (it : CItem) : mergeStep ls it ≠ [] := by
  unfold mergeStep
  cases h : ls.getLast? with
  | none => simp
  | some prev =>
    by_cases hc : prev.col = it.col ∧ |prev.top - it.top| ≤ 3 ∧ |prev.left - it.left| < 500 <;>
      simp [hc]

theorem mergeStep_append (a1 a2 : List XmlLine) (ha : a2 ≠ []) (it : CItem) :
    mergeStep (a1 ++ a2) it = a1 ++ mergeStep a2 it := by
  have hl2 : (a1 ++ a2).getLast? = a2.getLast? := List.getLast?_append_of_ne_nil a1 ha
  cases h : a2.getLast? with
  | none => exact absurd (List.getLast?_eq_none_iff.mp h) ha
  | some prev =>
    rw [mergeStep_last (a1 ++ a2) prev it (hl2.trans h), mergeStep_last a2 prev it h]
    by_cases hc : prev.col = it.col ∧ |prev.top - it.top| ≤ 3 ∧ |prev.left - it.left| < 500
    · rw [if_pos hc, if_pos hc, List.dropLast_append, if_neg (by simpa using ha),
        List.append_assoc]
    · rw [if_neg hc, if_neg hc, List.append_assoc]

theorem foldl_mergeStep_split (rest : List CItem) : ∀ (a1 a2 : List XmlLine), a2 ≠ [] →
    List.foldl mergeStep (a1 ++ a2) rest = a1 ++ List.foldl mergeStep a2 rest := by
  induction rest with
  | nil => intro a1 a2 _; simp
  | cons it r ih =>
    intro a1 a2 ha
    rw [List.foldl_cons, List.foldl_cons, mergeStep_append a1 a2 ha it]
    exact ih a1 (mergeStep a2 it) (mergeStep_ne_nil a2 it)

theorem mergeRuns_cols (P : ℤ → Prop) : ∀ (l : List CItem) (acc : List XmlLine),
    (∀ ln ∈ acc, P ln.col) → (∀ x ∈ l, P x.col) →
    ∀ ln ∈ List.foldl mergeStep acc l, P ln.col := by
  intro l
  induction l with
  | nil => intro acc hacc _ ln hln; exact hacc ln hln
  | cons it r ih =>
    intro acc hacc hl ln hln
    rw [List.foldl_cons] at hln
    refine ih (mergeStep acc it) ?_ (fun x hx => hl x (by simp [hx])) ln hln
    intro la hla
    cases h : acc.getLast? with
    | none =>
      rw [mergeStep_none acc it h] at hla
      simp at hla
      rw [hla]
      exact hl it (by simp)
    | some prev =>
      rw [mergeStep_last acc prev it h] at hla
      have hprev : P prev.col := hacc prev (mem_of_getLastQ h)
      by_cases hc : prev.col = it.col ∧ |prev.top - it.top| ≤ 3 ∧ |prev.left - it.left| < 500
      · rw [if_pos hc] at hla
        rcases List.mem_append.mp hla with hd | hm
        · exact hacc la ((List.dropLast_sublist acc).subset hd)
        · simp at hm
          rw [hm]
          exact hprev
      · rw [if_neg hc] at hla
        rcases List.mem_append.mp hla with hd | hm
        · exact hacc la hd
        · simp at hm
          rw [hm]
          exact hl it (by simp)

theorem mergeRuns_append01 (l0 l1 : List CItem)
    (h0 : ∀ x ∈ l0, x.col = 0) (h1 : ∀ x ∈ l1, x.col = 1) :
    mergeRuns (l0 ++ l1) = mergeRuns l0 ++ mergeRuns l1 := by
  rw [mergeRuns, List.foldl_append]
  cases l1 with
  | nil => simp [mergeRuns]
  | cons it r =>
    have hcols : ∀ ln ∈ List.foldl mergeStep ([] : List XmlLine) l0, ln.col = 0 :=
      mergeRuns_cols (fun c => c = 0) l0 [] (by simp) h0
    cases hacc : List.foldl mergeStep ([] : List XmlLine) l0 with
    | nil => simp [mergeRuns, hacc]
    | cons b bs =>
      have hstep : mergeStep (b :: bs) it = (b :: bs) ++ [lineOfItem it] := by
        cases hgl : (b :: bs).getLast? with
        | none => simp at hgl
        | some prev =>
          rw [mergeStep_last (b :: bs) prev it hgl, if_neg]
          rintro ⟨hcol, -, -⟩
          have hp0 : prev.col = 0 := hcols prev (hacc ▸ mem_of_getLastQ hgl)
          have hi1 : it.col = 1 := h1 it (by simp)
          omega
      rw [List.foldl_cons, hstep, foldl_mergeStep_split r (b :: bs) [lineOfItem it] (by simp)]
      rw [mergeRuns, hacc]
      rfl

theorem emitStep_out (out : List String) (pt : ℚ) (pc : ℤ) (l : XmlLine) :
    emitStep ⟨out, pt, pc⟩ l =
      ⟨out ++ (emitStep ⟨[], pt, pc⟩ l).out, (emitStep ⟨[], pt, pc⟩ l).prevTop,
       (emitStep ⟨[], pt, pc⟩ l).prevCol⟩ := by
  unfold emitStep
  by_cases ht : (⟨trimL (collapseWsL l.text.data)⟩ : String) = ""
  · simp [ht]
  · simp only [if_neg ht]
    split_ifs <;> simp

theorem emitAll_shift (ls : List XmlLine) : ∀ (out : List String) (pt : ℚ) (pc : ℤ),
    emitAll ⟨out, pt, pc⟩ ls =
      ⟨out ++ (emitAll ⟨[], pt, pc⟩ ls).out, (emitAll ⟨[], pt, pc⟩ ls).prevTop,
       (emitAll ⟨[], pt, pc⟩ ls).prevCol⟩ := by
  induction ls with
  | nil => intro out pt pc; simp [emitAll]
  | cons l r ih =>
    intro out pt pc
    have lhs : emitAll ⟨out, pt, pc⟩ (l :: r) = emitAll (emitStep ⟨out, pt, pc⟩ l) r := rfl
    have rhs : emitAll ⟨[], pt, pc⟩ (l :: r) = emitAll (emitStep ⟨[], pt, pc⟩ l) r := rfl
    cases he : emitStep (⟨[], pt, pc⟩ : EmitState) l with
    | mk eo ept epc =>
      rw [lhs, rhs, emitStep_out, he]
      rw [ih (out ++ eo) ept epc, ih eo ept epc]
      simp [List.append_assoc]

/-- C3: on a page with positive width and at least 26 collected runs on each
side of the guard bands, the page is classified two-column, every run with
`left > width / 2` gets column 1 and all others column 0, the merged lines
are exactly the column-0 lines followed by the column-1 lines, and the page's
emitted strings are those produced from the column-0 lines followed by those
produced from the column-1 lines (so in the final text, text from column-0
runs precedes text from column-1 runs). -/
theorem column_ordering (p : PageInput)
    (hw : 0 < p.width) (hl : 25 < leftCount p) (hr : 25 < rightCount p) :
    twoColOf p = true ∧
    (∀ it ∈ sortedRuns p, it.col = if p.width / 2 < it.left then 1 else 0) ∧
    mergedLines p =
      (mergedLines p).filter (fun ln => decide (ln.col = 0)) ++
        (mergedLines p).filter (fun ln => decide (ln.col = 1)) ∧
    outStrings p =
      (emitAll initEmit ((mergedLines p).filter (fun ln => decide (ln.col = 0)))).out ++
        (emitAll
          ⟨[],
           (emitAll initEmit ((mergedLines p).filter (fun ln => decide (ln.col = 0)))).prevTop,
           (emitAll initEmit ((mergedLines p).filter (fun ln => decide (ln.col = 0)))).prevCol⟩
          ((mergedLines p).filter (fun ln => decide (ln.col = 1)))).out := by
  have htc : twoColOf p = true := by simp [twoColOf, hw, hl, hr]
  have hmid : midOf p = p.width / 2 := if_pos hw
  have hcol : ∀ it ∈ sortedRuns p, it.col = if p.width / 2 < it.left then 1 else 0 := by
    intro it hit
    rw [sortedRuns, mem_sortRuns, taggedRuns, List.mem_map] at hit
    rcases hit with ⟨i, -, rfl⟩
    rw [tagItem, htc, hmid]
    by_cases hless : p.width / 2 < i.left
    · rw [if_pos ⟨rfl, hless⟩, if_pos hless]
    · rw [if_neg (by rintro ⟨-, hc⟩; exact hless hc), if_neg hless]
  have hcol01 : ∀ it ∈ sortedRuns p, it.col = 0 ∨ it.col = 1 := by
    intro it hit
    rw [hcol it hit]
    by_cases hless : p.width / 2 < it.left
    · right; rw [if_pos hless]
    · left; rw [if_neg hless]
  have hpair : (sortedRuns p).Pairwise (fun x y => x.col ≤ y.col) :=
    (pairwise_sortRuns (taggedRuns p)).imp (fun h => col_le_of_key_le _ _ h)
  have hsplit : sortedRuns p =
      (sortedRuns p).filter (fun x => decide (x.col = 0)) ++
        (sortedRuns p).filter (fun x => decide (x.col = 1)) :=
    zero_one_split (fun x : CItem => x.col) (sortedRuns p) hpair hcol01
  have hf0 : ∀ x ∈ (sortedRuns p).filter (fun x => decide (x.col = 0)), x.col = 0 := by
    intro x hx
    have := (List.mem_filter.mp hx).2
    simpa using this
  have hf1 : ∀ x ∈ (sortedRuns p).filter (fun x => decide (x.col = 1)), x.col = 1 := by
    intro x hx
    have := (List.mem_filter.mp hx).2
    simpa using this
  have hmerge : mergedLines p =
      mergeRuns ((sortedRuns p).filter (fun x => decide (x.col = 0))) ++
        mergeRuns ((sortedRuns p).filter (fun x => decide (x.col = 1))) := by
    rw [mergedLines]
    calc mergeRuns (sortedRuns p)
        = mergeRuns ((sortedRuns p).filter (fun x => decide (x.col = 0)) ++
            (sortedRuns p).filter (fun x => decide (x.col = 1))) := by rw [← hsplit]
      _ = _ := mergeRuns_append01 _ _ hf0 hf1
  have hm0 : ∀ ln ∈ mergeRuns ((sortedRuns p).filter (fun x => decide (x.col = 0))),
      ln.col = 0 :=
    mergeRuns_cols (fun c => c = 0) _ [] (by simp) hf0
  have hm1 : ∀ ln ∈ mergeRuns ((sortedRuns p).filter (fun x => decide (x.col = 1))),
      ln.col = 1 :=
    mergeRuns_cols (fun c => c = 1) _ [] (by simp) hf1
  have hfl0 : (mergedLines p).filter (fun ln => decide (ln.col = 0)) =
      mergeRuns ((sortedRuns p).filter (fun x => decide (x.col = 0))) := by
    rw [hmerge, List.filter_append]
    have e1 : (mergeRuns ((sortedRuns p).filter (fun x => decide (x.col = 0)))).filter
        (fun ln => decide (ln.col = 0)) =
        mergeRuns ((sortedRuns p).filter (fun x => decide (x.col = 0))) := by
      rw [List.filter_eq_self]
      intro a ha
      simp [hm0 a ha]
    have e2 : (mergeRuns ((sortedRuns p).filter (fun x => decide (x.col = 1)))).filter
        (fun ln => decide (ln.col = 0)) = [] := by
      rw [List.filter_eq_nil_iff]
      intro a ha
      simp [hm1 a ha]
    rw [e1, e2, List.append_nil]
  have hfl1 : (mergedLines p).filter (fun ln => decide (ln.col = 1)) =
      mergeRuns ((sortedRuns p).filter (fun x => decide (x.col = 1))) := by
    rw [hmerge, List.filter_append]
    have e1 : (mergeRuns ((sortedRuns p).filter (fun x => decide (x.col = 0)))).filter
        (fun ln => decide (ln.col = 1)) = [] := by
      rw [List.filter_eq_nil_iff]
      intro a ha
      simp [hm0 a ha]
    have e2 : (mergeRuns ((sortedRuns p).filter (fun x => decide (x.col = 1)))).filter
        (fun ln => decide (ln.col = 1)) =
        mergeRuns ((sortedRuns p).filter (fun x => decide (x.col = 1))) := by
      rw [List.filter_eq_self]
      intro a ha
      simp [hm1 a ha]
    rw [e1, e2, List.nil_append]
  refine ⟨htc, hcol, ?_, ?_⟩
  · rw [hfl0, hfl1, ← hmerge]
  · have hout : outStrings p =
        (emitAll
          (emitAll initEmit (mergeRuns ((sortedRuns p).filter (fun x => decide (x.col = 0)))))
          (mergeRuns ((sortedRuns p).filter (fun x => decide (x.col = 1))))).out := by
      rw [outStrings, hmerge]
      exact congrArg EmitState.out (List.foldl_append _ _ _ _)
    rw [hfl0, hfl1, hout]
    cases hA : emitAll initEmit
        (mergeRuns ((sortedRuns p).filter (fun x => decide (x.col = 0)))) with
    | mk eo ept epc =>
      rw [emitAll_shift]

/-- Witness for C3: a concrete page with 26 far-left and 26 far-right runs. -/
theorem column_ordering_witness :
    0 < twoColPage.width ∧ 25 < leftCount twoColPage ∧ 25 < rightCount twoColPage ∧
    twoColOf twoColPage = true :=
  ⟨by decide, by decide, by decide,
   (column_ordering twoColPage (by decide) (by decide) (by decide)).1⟩

/-! Claim C9: the bold flag never influences the output. -/

theorem afterTagAux_length : ∀ (l r : List Char), afterTagAux l = some r → r.length < l.length := by
  intro l
  induction l with
  | nil => intro r h; simp [afterTagAux] at h
  | cons c rest ih =>
    intro r h
    by_cases hc : c = '>'
    · simp only [afterTagAux, if_pos hc, Option.some.injEq] at h
      simp [← h]
    · simp only [afterTagAux, if_neg hc] at h
      have := ih r h
      simp only [List.length_cons]
      omega

theorem afterTag_length : ∀ (l r : List Char), afterTag l = some r → r.length < l.length := by
  intro l r h
  cases l with
  | nil => simp [afterTag] at h
  | cons c rest =>
    by_cases hc : c = '>'
    · simp [afterTag, hc] at h
    · simp only [afterTag, if_neg hc] at h
      have := afterTagAux_length rest r h
      simp only [List.length_cons]
      omega

theorem stripTagsF_irrel : ∀ (f1 f2 : Nat) (l : List Char), l.length ≤ f1 → l.length ≤ f2 →
    stripTagsF f1 l = stripTagsF f2 l := by
  intro f1
  induction f1 with
  | zero =>
    intro f2 l h1 _
    have : l = [] := List.length_eq_zero.mp (Nat.le_zero.mp h1)
    subst this
    cases f2 <;> rfl
  | succ f1 ih =>
    intro f2 l h1 h2
    cases l with
    | nil => cases f2 <;> rfl
    | cons c rest =>
      cases f2 with
      | zero => simp at h2
      | succ f2 =>
        simp only [List.length_cons, Nat.succ_le_succ_iff] at h1 h2
        by_cases hc : c = '<'
        · simp only [stripTagsF, if_pos hc]
          cases h : afterTag rest with
          | some after =>
            have hlen := afterTag_length rest after h
            exact ih f2 after (by omega) (by omega)
          | none => rw [ih f2 rest h1 h2]
        · simp only [stripTagsF, if_neg hc]
          rw [ih f2 rest h1 h2]

theorem stripTags_cons_ne (c : Char) (rest : List Char) (hc : ¬ (c = '<')) :
    stripTags (c :: rest) = c :: stripTags rest := by
  show stripTagsF (rest.length + 1) (c :: rest) = _
  simp only [stripTagsF, if_neg hc]
  rfl

theorem stripTags_cons_tag (rest after : List Char) (h : afterTag rest = some after) :
    stripTags ('<' :: rest) = stripTags after := by
  show stripTagsF (rest.length + 1) ('<' :: rest) = _
  simp only [stripTagsF, if_true, eq_self_iff_true]
  rw [h]
  exact stripTagsF_irrel rest.length after.length after
    (le_of_lt (afterTag_length rest after h)) le_rfl

theorem afterTag_b (r : List Char) : afterTag ('b' :: '>' :: r) = some r := rfl

theorem afterTag_slash_b (r : List Char) : afterTag ('/' :: 'b' :: '>' :: r) = some r := rfl

theorem stripTags_append_clean (s : List Char) (r : List Char) (h : ('<' : Char) ∉ s) :
    stripTags (s ++ r) = s ++ stripTags r := by
  induction s with
  | nil => simp
  | cons c cs ih =>
    have hc : ¬ (c = '<') := by
      intro he
      exact h (by rw [he]; simp)
    have hcs : ('<' : Char) ∉ cs := fun hm => h (by simp [hm])
    rw [List.cons_append, stripTags_cons_ne c _ hc, ih hcs, List.cons_append]

theorem stripTags_render : ∀ fs : List Frag, (∀ f ∈ fs, f.ok) →
    stripTags (renderFrags fs) = contentFrags fs := by
  intro fs
  induction fs with
  | nil => intro _; rfl
  | cons f rest ih =>
    intro hok
    have hf := hok f (by simp)
    have hrest : ∀ g ∈ rest, g.ok := fun g hg => hok g (by simp [hg])
    cases f with
    | plain s =>
      obtain ⟨h1, -⟩ := hf
      show stripTags (s.data ++ renderFrags rest) = s.data ++ contentFrags rest
      rw [stripTags_append_clean s.data _ h1, ih hrest]
    | bold s =>
      obtain ⟨h1, -⟩ := hf
      have hshape : renderFrags (Frag.bold s :: rest) =
          '<' :: 'b' :: '>' :: (s.data ++ ('<' :: '/' :: 'b' :: '>' :: renderFrags rest)) := by
        show ("<b>".data ++ (s.data ++ "</b>".data)) ++ renderFrags rest = _
        simp [List.append_assoc]
      rw [hshape, stripTags_cons_tag _ _ (afterTag_b _),
        stripTags_append_clean s.data _ h1,
        stripTags_cons_tag _ _ (afterTag_slash_b _), ih hrest]
      rfl

theorem itemOfText_upToBold (h : ℚ) (fonts : List (String × ℚ)) (t1 t2 : RawText)
    (rel : TextUpToBold t1 t2) :
    Option.map eraseBoldI (itemOfText h fonts t1) =
      Option.map eraseBoldI (itemOfText h fonts t2) := by
  rcases rel with ⟨htop, hleft, hfont, fs1, fs2, hok1, hok2, hb1, hb2, hcont⟩
  have htext : normText t1.body = normText t2.body := by
    rw [normText, normText, hb1, hb2, stripTags_render fs1 hok1, stripTags_render fs2 hok2,
      hcont]
  simp only [itemOfText, htext, htop, hleft, hfont,
    apply_ite (Option.map eraseBoldI), Option.map_some', Option.map_none', eraseBoldI]

theorem filterMap_map_congr {α β γ : Type _} (f : α → Option β) (g : β → γ)
    (R : α → α → Prop)
    (hfg : ∀ a b, R a b → Option.map g (f a) = Option.map g (f b)) :
    ∀ l1 l2, List.Forall₂ R l1 l2 → (l1.filterMap f).map g = (l2.filterMap f).map g := by
  intro l1 l2 h
  induction h with
  | nil => rfl
  | cons hr hrest ih =>
    rw [List.filterMap_cons, List.filterMap_cons]
    rename_i a b r1 r2
    have hab := hfg a b hr
    cases hfa : f a with
    | none =>
      cases hfb : f b with
      | none => exact ih
      | some vb =>
        rw [hfa, hfb] at hab
        simp at hab
    | some va =>
      cases hfb : f b with
      | none =>
        rw [hfa, hfb] at hab
        simp at hab
      | some vb =>
        rw [hfa, hfb] at hab
        simp only [Option.map_some', Option.some.injEq] at hab
        simp [hab, ih]

theorem eraseBoldC_tagItem (tc : Bool) (mid : ℚ) (i : Item) :
    eraseBoldC (tagItem tc mid i) = tagItem tc mid (eraseBoldI i) := rfl

theorem runLtB_eraseBoldC (a b : CItem) : runLtB (eraseBoldC a) (eraseBoldC b) = runLtB a b :=
  rfl

theorem insertRun_map_erase (a : CItem) (l : List CItem) :
    (insertRun a l).map eraseBoldC = insertRun (eraseBoldC a) (l.map eraseBoldC) := by
  induction l with
  | nil => rfl
  | cons b bs ih =>
    by_cases h : runLtB b a
    · simp [insertRun, runLtB_eraseBoldC, h, ih]
    · simp [insertRun, runLtB_eraseBoldC, h, ih]

theorem sortRuns_map_erase (l : List CItem) :
    (sortRuns l).map eraseBoldC = sortRuns (l.map eraseBoldC) := by
  induction l with
  | nil => rfl
  | cons a rest ih =>
    show (insertRun a (sortRuns rest)).map eraseBoldC = _
    rw [insertRun_map_erase, ih]
    rfl

theorem mergeStep_map_erase (ls : List XmlLine) (it : CItem) :
    (mergeStep ls it).map eraseBoldL = mergeStep (ls.map eraseBoldL) (eraseBoldC it) := by
  cases h : ls.getLast? with
  | none =>
    have h2 : (ls.map eraseBoldL).getLast? = none := by
      rw [List.getLast?_map, h]
      rfl
    rw [mergeStep_none ls it h, mergeStep_none _ _ h2]
    rfl
  | some prev =>
    have h2 : (ls.map eraseBoldL).getLast? = some (eraseBoldL prev) := by
      rw [List.getLast?_map, h]
      rfl
    rw [mergeStep_last ls prev it h, mergeStep_last _ (eraseBoldL prev) (eraseBoldC it) h2]
    by_cases hc : prev.col = it.col ∧ |prev.top - it.top| ≤ 3 ∧ |prev.left - it.left| < 500
    · have hc2 : (eraseBoldL prev).col = (eraseBoldC it).col ∧
          |(eraseBoldL prev).top - (eraseBoldC it).top| ≤ 3 ∧
          |(eraseBoldL prev).left - (eraseBoldC it).left| < 500 := hc
      rw [if_pos hc, if_pos hc2]
      simp [List.map_append, List.map_dropLast, eraseBoldL, eraseBoldC]
    · have hc2 : ¬ ((eraseBoldL prev).col = (eraseBoldC it).col ∧
          |(eraseBoldL prev).top - (eraseBoldC it).top| ≤ 3 ∧
          |(eraseBoldL prev).left - (eraseBoldC it).left| < 500) := hc
      rw [if_neg hc, if_neg hc2]
      simp [lineOfItem, eraseBoldL, eraseBoldC]

theorem foldl_mergeStep_map_erase (l : List CItem) : ∀ acc : List XmlLine,
    (List.foldl mergeStep acc l).map eraseBoldL =
      List.foldl mergeStep (acc.map eraseBoldL) (l.map eraseBoldC) := by
  induction l with
  | nil => intro acc; rfl
  | cons it r ih =>
    intro acc
    rw [List.map_cons, List.foldl_cons, List.foldl_cons, ih (mergeStep acc it),
      mergeStep_map_erase]

theorem mergeRuns_map_erase (l : List CItem) :
    (mergeRuns l).map eraseBoldL = mergeRuns (l.map eraseBoldC) := by
  rw [mergeRuns, mergeRuns, foldl_mergeStep_map_erase]
  rfl

theorem emitStep_erase (st : EmitState) (l : XmlLine) :
    emitStep st (eraseBoldL l) = emitStep st l := rfl

theorem emitAll_erase (ls : List XmlLine) : ∀ st : EmitState,
    emitAll st (ls.map eraseBoldL) = emitAll st ls := by
  induction ls with
  | nil => intro st; rfl
  | cons l r ih =>
    intro st
    show emitAll (emitStep st (eraseBoldL l)) (r.map eraseBoldL) = emitAll (emitStep st l) r
    rw [emitStep_erase]
    exact ih _

theorem pageText_upToBold (p q : PageInput) (hw : p.width = q.width)
    (hi : (collectItems p).map eraseBoldI = (collectItems q).map eraseBoldI) :
    pageText p = pageText q := by
  have hmid : midOf p = midOf q := by rw [midOf, midOf, hw]
  have hfilt : ∀ (l : List Item) (pr prE : Item → Bool),
      (∀ i, pr i = prE (eraseBoldI i)) →
      (l.filter pr).length = ((l.map eraseBoldI).filter prE).length := by
    intro l pr prE hpr
    rw [List.filter_map, List.length_map]
    congr 1
    exact List.filter_congr (fun i _ => hpr i)
  have hlc : leftCount p = leftCount q := by
    have hl1 := hfilt (collectItems p) (fun i => decide (i.left < midOf q - 40))
      (fun i => decide (i.left < midOf q - 40)) (fun i => rfl)
    have hl2 := hfilt (collectItems q) (fun i => decide (i.left < midOf q - 40))
      (fun i => decide (i.left < midOf q - 40)) (fun i => rfl)
    rw [leftCount, leftCount, hmid, hl1, hl2, hi]
  have hrc : rightCount p = rightCount q := by
    have hl1 := hfilt (collectItems p) (fun i => decide (i.left > midOf q + 40))
      (fun i => decide (i.left > midOf q + 40)) (fun i => rfl)
    have hl2 := hfilt (collectItems q) (fun i => decide (i.left > midOf q + 40))
      (fun i => decide (i.left > midOf q + 40)) (fun i => rfl)
    rw [rightCount, rightCount, hmid, hl1, hl2, hi]
  have htc : twoColOf p = twoColOf q := by rw [twoColOf, twoColOf, hw, hlc, hrc]
  have htag : (taggedRuns p).map eraseBoldC = (taggedRuns q).map eraseBoldC := by
    rw [taggedRuns, taggedRuns, htc, hmid, List.map_map, List.map_map]
    have hcomp : eraseBoldC ∘ tagItem (twoColOf q) (midOf q) =
        tagItem (twoColOf q) (midOf q) ∘ eraseBoldI := rfl
    rw [hcomp, ← List.map_map, ← List.map_map, hi]
  have hsort : (sortedRuns p).map eraseBoldC = (sortedRuns q).map eraseBoldC := by
    rw [sortedRuns, sortedRuns, sortRuns_map_erase, sortRuns_map_erase, htag]
  have hmerged : (mergedLines p).map eraseBoldL = (mergedLines q).map eraseBoldL := by
    rw [mergedLines, mergedLines, mergeRuns_map_erase, mergeRuns_map_erase, hsort]
  have hout : outStrings p = outStrings q := by
    rw [outStrings, outStrings, ← emitAll_erase (mergedLines p) initEmit,
      ← emitAll_erase (mergedLines q) initEmit, hmerged]
  rw [pageText, pageText, hout]

theorem map_comp_congr {α β γ : Type _} (f : α → β) (g : β → γ) :
    ∀ l1 l2 : List α, l1.map f = l2.map f →
    l1.map (fun x => g (f x)) = l2.map (fun x => g (f x)) := by
  intro l1
  induction l1 with
  | nil =>
    intro l2 h
    cases l2 with
    | nil => rfl
    | cons b t2 => simp at h
  | cons a t ih =>
    intro l2 h
    cases l2 with
    | nil => simp at h
    | cons b t2 =>
      simp only [List.map_cons, List.cons.injEq] at h
      simp only [List.map_cons, h.1, ih t2 h.2]

theorem pageText_pageUpToBold (p q : PageInput) (h : PageUpToBold p q) :
    pageText p = pageText q := by
  rcases h with ⟨hh, hw, hf, ht⟩
  refine pageText_upToBold p q hw ?_
  rw [collectItems, collectItems, hh, hf]
  exact filterMap_map_congr _ _ TextUpToBold (itemOfText_upToBold q.height q.fonts)
    p.texts q.texts ht

/-- C9: two inputs that differ only in the presence or absence of `<b>`
emphasis wrappers inside their text elements (same attributes, same wrapped
character content) produce identical page arrays and identical statistics:
the bold flag never influences any output. -/
theorem bold_markup_noninterference (ps1 ps2 : List PageInput)
    (h : List.Forall₂ PageUpToBold ps1 ps2) :
    buildSemantic ps1 = buildSemantic ps2 := by
  have hmap : ps1.map pageText = ps2.map pageText := by
    induction h with
    | nil => rfl
    | cons h1 _ ih =>
      rw [List.map_cons, List.map_cons, pageText_pageUpToBold _ _ h1, ih]
  have hlen : ps1.length = ps2.length := h.length_eq
  rw [buildSemantic_eq, buildSemantic_eq]
  have e1 : ps1.map (fun p => lineCountOf (pageText p)) =
      ps2.map (fun p => lineCountOf (pageText p)) :=
    map_comp_congr pageText lineCountOf ps1 ps2 hmap
  have e2 : ps1.map (fun p => (pageText p).length) =
      ps2.map (fun p => (pageText p).length) :=
    map_comp_congr pageText String.length ps1 ps2 hmap
  rw [hmap, hlen, e1, e2]

/-- Witness for C9: a page whose single text element is `<b>HI</b>` against
the same page with body `HI`. -/
theorem bold_markup_noninterference_witness :
    List.Forall₂ PageUpToBold
      [⟨0, 600, [], [⟨100, 50, "f", "<b>HI</b>"⟩]⟩]
      [⟨0, 600, [], [⟨100, 50, "f", "HI"⟩]⟩] ∧
    buildSemantic [⟨0, 600, [], [⟨100, 50, "f", "<b>HI</b>"⟩]⟩] =
      buildSemantic [⟨0, 600, [], [⟨100, 50, "f", "HI"⟩]⟩] := by
  have hrel : PageUpToBold ⟨0, 600, [], [⟨100, 50, "f", "<b>HI</b>"⟩]⟩
      ⟨0, 600, [], [⟨100, 50, "f", "HI"⟩]⟩ := by
    refine ⟨rfl, rfl, rfl, ?_⟩
    refine List.Forall₂.cons ?_ List.Forall₂.nil
    refine ⟨rfl, rfl, rfl, [Frag.bold "HI"], [Frag.plain "HI"], ?_, ?_, ?_, ?_, ?_⟩
    · intro f hf
      simp only [List.mem_singleton] at hf
      rw [hf]
      exact ⟨by decide, by decide⟩
    · intro f hf
      simp only [List.mem_singleton] at hf
      rw [hf]
      exact ⟨by decide, by decide⟩
    · decide
    · decide
    · decide
  exact ⟨List.Forall₂.cons hrel List.Forall₂.nil,
    bold_markup_noninterference _ _ (List.Forall₂.cons hrel List.Forall₂.nil)⟩

end PdfToMd
